import Mathlib

/-!
# Verification of the mangle-photos build pipeline (`src/main.rs`)

This file gives a shallow embedding of the build pipeline of the
mangle-photos gallery server and settles the specification's claims
against it.

Modelling conventions:

* File contents are `List Nat` (byte lists).
* A directory entry carries the `file_name`, the `extension()` as an
  `Option String`, and the file's readable contents as `Option (List Nat)`
  (`none` means the file cannot be opened/read).
* `read_dir` may fail (`Option` around the listing) and each individual
  entry read may fail (`Except Unit` per entry), mirroring
  `read_dir(".").expect(..)` and the per-entry `io::Result`.
* A Rust `expect`/panic that aborts the process is modelled as `none` of
  the surrounding `Option`: a `none` build result means the process died.
  (A panic inside `rayon::spawn` aborts the process; even if it did not,
  the corresponding `MaybeUninit` slot would stay uninitialized and the
  later `assume_init` would be undefined behaviour, so no output exists.)
* The external JPEG/WebP codecs are an oracle parameter
  `tc : List Nat → Option (List Nat)` taking the full file bytes to the
  encoded preview bytes, `none` meaning any of decoder construction,
  `scale`, `from_decoder` or webp encoding failed (each is an `expect` in
  the worker, i.e. a panic).
* Worker completion order — the order in which the spawned tasks reach
  the `all_zip.lock()` critical section — is an explicit parameter
  `order : List Nat` over slot indices; a real run has `order` a
  permutation of `List.range N`.
-/

namespace ManglePhotos

/-- One filesystem directory entry as the scanner observes it:
the `file_name()`, the `extension()` (as UTF-8, when present), and the
file's contents (`none` when the file cannot be opened or read). -/
structure DirEnt where
  name : String
  ext : Option String
  bytes : Option (List Nat)
deriving Repr, DecidableEq

/-- The extension filter of `main.rs` lines 64-67 and 91-94:
`match path.extension() { Some("jpg" | "jpeg") => .., _ => .. }`.
Note the comparison is an exact (case-sensitive) string match. -/
def extMatch : Option String → Bool
  | some "jpg" => true
  | some "jpeg" => true
  | _ => false

/-- The body of the scanner's `map` closure (lines 62-70):
`res.map(|path| match ext { jpg/jpeg => Some(path), _ => None }).transpose()`.
An errored entry stays an error (and is kept by the later `filter_map`);
an ok entry survives iff its extension matches. -/
def scanStep : Except Unit DirEnt → Option (Except Unit DirEnt)
  | .error e => some (.error e)
  | .ok p => if extMatch p.ext then some (.ok p) else none

/-- Rust's `Iterator::try_collect::<Vec<_>>()`: collects the ok values
left to right, short-circuiting on the first error. -/
def tryCollect : List (Except Unit DirEnt) → Except Unit (List DirEnt)
  | [] => .ok []
  | .error e :: _ => .error e
  | .ok a :: xs => (tryCollect xs).map (a :: ·)

/-- The scanner's per-listing computation (lines 62-72):
map `scanStep`, `filter_map` identity, `try_collect`. -/
def scanDir (listing : List (Except Unit DirEnt)) : Except Unit (List DirEnt) :=
  tryCollect (listing.filterMap scanStep)

/-- The whole scan phase (lines 60-73). `root = none` models
`read_dir(".")` itself failing; both that `expect` and the
`expect("Listing entry")` on `try_collect`'s error abort the process,
modelled as `none`. -/
def scan (root : Option (List (Except Unit DirEnt))) : Option (List DirEnt) :=
  match root with
  | none => none
  | some listing =>
    match scanDir listing with
    | .error _ => none
    | .ok l => some l

/-- What one transcode worker deposits in its `shared` slot, plus the
full bytes it appended to the zip: the `image_name` (from
`path.file_name()`), the webp preview bytes served by the preview
handler, and the original file bytes served by the full handler. -/
structure WorkerOut where
  name : String
  preview : List Nat
  full : List Nat
deriving Repr, DecidableEq

/-- One transcode worker (lines 105-170). Opening/reading the file and
every codec stage are `expect`s: any failure panics, which kills the
build (`none`). On success the worker's slot holds the name, the encoded
preview, and the untouched full bytes. -/
def runWorker (tc : List Nat → Option (List Nat)) (f : DirEnt) : Option WorkerOut :=
  match f.bytes with
  | none => none
  | some full =>
    match tc full with
    | none => none
    | some prev => some ⟨f.name, prev, full⟩

/-- Collects a list of optional results; `none` anywhere (a panicked
worker) makes the whole collection `none` (the process aborts before any
output is produced). -/
def allSome {α : Type} : List (Option α) → Option (List α)
  | [] => some []
  | none :: _ => none
  | some a :: xs => (allSome xs).map (a :: ·)

/-- The observable outcome of the build phase:
`slots` is the `shared` vector read out in index order by the main
thread (lines 188-201), and `zipEntries` is the sequence of
`(name, bytes)` entries written into the shared `ZipWriter`, in the
order the workers took the `all_zip` mutex (lines 143-151). -/
structure RunOutput where
  slots : List WorkerOut
  zipEntries : List (String × List Nat)
deriving Repr, DecidableEq

/-- One complete build run over the scanned candidates `files`, with
worker completion order `order` (the order in which workers reach the
zip critical section; in a real run a permutation of
`List.range files.length`). Worker `i` writes only its own slot
`shared[i]`, so `slots` is in scan order by construction; the zip is
appended in completion order. A `none` is a process abort. -/
def buildRun (tc : List Nat → Option (List Nat)) (files : List DirEnt)
    (order : List Nat) : Option RunOutput :=
  match allSome (files.map (runWorker tc)) with
  | none => none
  | some outs =>
    some ⟨outs, order.filterMap (fun i => (outs.get? i).map (fun w => (w.name, w.full)))⟩

/-- The PresentationList: for each slot, in `shared` order, the display
name, its preview route key `/preview_{image_name}` and its full route
key `/{image_name}` (lines 188-201). -/
def presentationList (r : RunOutput) : List (String × String × String) :=
  r.slots.map (fun w => (w.name, "/preview_" ++ w.name, "/" ++ w.name))

/-- The frozen AssetTable handed to the serving layer: the routes
registered on the axum `Router` in registration order — per image the
full route (Content-Type `image/jpeg`) and preview route
(Content-Type `image/webp`), then `/` (home page, `text/html`) and
`/images.zip` (the finalized archive, `application/zip`). -/
def routeTable (r : RunOutput) (zipBytes homeBytes : List Nat) :
    List (String × List Nat × String) :=
  (r.slots.map (fun w =>
    [("/" ++ w.name, w.full, "image/jpeg"),
     ("/preview_" ++ w.name, w.preview, "image/webp")])).flatten
  ++ [("/", homeBytes, "text/html"), ("/images.zip", zipBytes, "application/zip")]

/-- Route lookup against the frozen table: first matching key, or
`none` (NotFound). Total — a lookup never panics. -/
def lookup (t : List (String × List Nat × String)) (k : String) :
    Option (List Nat × String) :=
  (t.find? (fun e => e.1 == k)).map (fun e => e.2)

/-- The filename stem in the sense of the spec: the filename without its
final dot-separated extension (used only to compare the spec's claimed
key derivation against the code's). -/
def stem (s : String) : String :=
  if '.' ∈ s.toList then
    (((s.toList.reverse.dropWhile (fun c => c ≠ '.')).drop 1).reverse).asString
  else s

/-- ASCII lowercasing of one character (used only to state the spec's
case-insensitive extension comparison). -/
def lowerChar (c : Char) : Char :=
  if 'A' ≤ c ∧ c ≤ 'Z' then Char.ofNat (c.toNat + 32) else c

/-- Case-insensitive string equality in the sense of the spec. -/
def eqCI (a b : String) : Bool :=
  a.toList.map lowerChar == b.toList.map lowerChar

/-- The extension filter as the spec describes it (case-insensitive
match against the JPEG suffix set); compared against `extMatch`. -/
def extMatchCI : Option String → Bool
  | some s => eqCI s "jpg" || eqCI s "jpeg"
  | none => false

/-- Modelled from the spec: the decoder-level scaling hint. The actual
semantics live in the external `image`/`jpeg-decoder` crates (not part
of this repository), so this follows the spec's words: the decoded
dimensions are capped at 900×600, both axes scaled by one common factor
(aspect ratio preserved within standard rounding); images already within
the cap are decoded at full size. -/
def specScale (w h : Nat) : Nat × Nat :=
  if w ≤ 900 ∧ h ≤ 600 then (w, h)
  else if 900 * h ≤ 600 * w then (900, h * 900 / w)
  else (w * 600 / h, 600)

/-- The composition actually run by `main`: scan the root, then build.
`main` re-checks the extension inside the spawn loop (lines 91-94), but
`scan_all_extMatch` below shows every scanned candidate already passes
that check, so the re-check is the identity on scanner output. -/
def runMain (tc : List Nat → Option (List Nat))
    (root : Option (List (Except Unit DirEnt))) (order : List Nat) : Option RunOutput :=
  match scan root with
  | none => none
  | some files => buildRun tc files order

/-! ## Scanner lemmas -/

theorem tryCollect_error_mem {l : List (Except Unit DirEnt)}
    (h : Except.error () ∈ l) : tryCollect l = .error () := by
  induction l with
  | nil => cases h
  | cons x xs ih =>
    cases x with
    | error e => cases e; rfl
    | ok a =>
      rcases List.mem_cons.mp h with h' | h'
      · cases h'
      · simp [tryCollect, ih h', Except.map]

theorem tryCollect_ok_mem {xs : List (Except Unit DirEnt)} {ds : List DirEnt}
    (h : tryCollect xs = .ok ds) : ∀ d ∈ ds, Except.ok d ∈ xs := by
  induction xs generalizing ds with
  | nil => cases h; intro d hd; cases hd
  | cons x xs ih =>
    intro d hd
    cases x with
    | error e => simp [tryCollect] at h
    | ok a =>
      cases hrest : tryCollect xs with
      | error e => rw [tryCollect, hrest] at h; cases h
      | ok rest =>
        rw [tryCollect, hrest] at h
        simp [Except.map] at h
        subst h
        rcases List.mem_cons.mp hd with h' | h'
        · exact h' ▸ List.mem_cons_self _ _
        · exact List.mem_cons_of_mem _ (ih hrest d h')

theorem mem_filterMap_scanStep {l : List (Except Unit DirEnt)} {d : DirEnt}
    (h : Except.ok d ∈ l.filterMap scanStep) : extMatch d.ext = true := by
  rcases List.mem_filterMap.mp h with ⟨x, _, hstep⟩
  cases x with
  | error e => simp [scanStep] at hstep
  | ok p =>
    by_cases hp : extMatch p.ext
    · simp [scanStep, hp] at hstep
      exact hstep ▸ hp
    · simp [scanStep, hp] at hstep

theorem scanDir_allOk {l : List (Except Unit DirEnt)}
    (h : ∀ x ∈ l, x ≠ Except.error ()) :
    scanDir l = .ok ((l.filterMap Except.toOption).filter (fun d => extMatch d.ext)) := by
  induction l with
  | nil => rfl
  | cons x xs ih =>
    have hx := h x (List.mem_cons_self x xs)
    have ih' := ih (fun y hy => h y (List.mem_cons_of_mem _ hy))
    cases x with
    | error e => cases e; exact absurd rfl hx
    | ok p =>
      by_cases hp : extMatch p.ext <;>
        simp [scanDir, List.filterMap_cons, scanStep, hp, tryCollect, Except.toOption,
          List.filter_cons, Except.map] at ih' ⊢ <;>
        simp [ih', Except.map]

theorem scan_entry_error {l : List (Except Unit DirEnt)}
    (h : Except.error () ∈ l) : scan (some l) = none := by
  have hmem : Except.error () ∈ l.filterMap scanStep :=
    List.mem_filterMap.mpr ⟨Except.error (), h, rfl⟩
  simp [scan, scanDir, tryCollect_error_mem hmem]

theorem scan_allOk {l : List (Except Unit DirEnt)}
    (h : ∀ x ∈ l, x ≠ Except.error ()) :
    scan (some l) =
      some ((l.filterMap Except.toOption).filter (fun d => extMatch d.ext)) := by
  simp [scan, scanDir_allOk h]

/-- Every candidate the scanner returns already passes the extension
filter, so the re-check in the spawn loop (lines 91-94) never skips. -/
theorem scan_all_extMatch {root} {files : List DirEnt} (h : scan root = some files) :
    ∀ d ∈ files, extMatch d.ext = true := by
  cases root with
  | none => cases h
  | some l =>
    cases hs : scanDir l with
    | error e => simp [scan, hs] at h
    | ok ds =>
      simp [scan, hs] at h
      subst h
      intro d hd
      exact mem_filterMap_scanStep (tryCollect_ok_mem hs d hd)

/-! ## Worker and build lemmas -/

theorem runWorker_some {tc : List Nat → Option (List Nat)} {f : DirEnt} {w : WorkerOut}
    (h : runWorker tc f = some w) :
    w.name = f.name ∧ f.bytes = some w.full ∧ tc w.full = some w.preview := by
  cases hb : f.bytes with
  | none => simp [runWorker, hb] at h
  | some full =>
    cases ht : tc full with
    | none => simp [runWorker, hb, ht] at h
    | some prev =>
      simp [runWorker, hb, ht] at h
      subst h
      refine ⟨rfl, ?_, ?_⟩ <;> simp [hb, ht]

theorem allSome_eq_none {α : Type} {l : List (Option α)} (h : none ∈ l) :
    allSome l = none := by
  induction l with
  | nil => cases h
  | cons x xs ih =>
    cases x with
    | none => rfl
    | some a =>
      rcases List.mem_cons.mp h with h' | h'
      · cases h'
      · simp [allSome, ih h']

theorem allSome_forall₂ {α : Type} {l : List (Option α)} {out : List α}
    (h : allSome l = some out) : List.Forall₂ (fun x a => x = some a) l out := by
  induction l generalizing out with
  | nil => cases h; exact .nil
  | cons x xs ih =>
    cases x with
    | none => simp [allSome] at h
    | some a =>
      cases hxs : allSome xs with
      | none => rw [allSome, hxs] at h; cases h
      | some ys =>
        rw [allSome, hxs] at h
        simp at h
        subst h
        exact .cons rfl (ih hxs)

/-- A successful build run is characterized by: each slot holds its own
worker's output (in scan order), and the zip holds the entries in
completion order. -/
theorem buildRun_some {tc : List Nat → Option (List Nat)} {files : List DirEnt}
    {order : List Nat} {r : RunOutput} (h : buildRun tc files order = some r) :
    List.Forall₂ (fun f w => runWorker tc f = some w) files r.slots ∧
    r.zipEntries =
      order.filterMap (fun i => (r.slots.get? i).map (fun w => (w.name, w.full))) := by
  unfold buildRun at h
  cases hs : allSome (files.map (runWorker tc)) with
  | none => rw [hs] at h; cases h
  | some outs =>
    rw [hs] at h
    cases h
    refine ⟨?_, rfl⟩
    have h₂ := allSome_forall₂ hs
    exact List.forall₂_map_left_iff.mp h₂

theorem forall₂_slots_names {tc : List Nat → Option (List Nat)}
    {files : List DirEnt} {slots : List WorkerOut}
    (h : List.Forall₂ (fun f w => runWorker tc f = some w) files slots) :
    slots.map WorkerOut.name = files.map DirEnt.name := by
  induction h with
  | nil => rfl
  | cons hfw _ ih => simp [(runWorker_some hfw).1, ih]

theorem forall₂_slots_get {tc : List Nat → Option (List Nat)}
    {files : List DirEnt} {slots : List WorkerOut}
    (h : List.Forall₂ (fun f w => runWorker tc f = some w) files slots) (i : Nat) :
    (slots.get? i).map (fun w => (w.name, w.full)) =
      (files.get? i).map (fun f => (f.name, f.bytes.getD [])) := by
  induction h generalizing i with
  | nil => rfl
  | cons hfw _ ih =>
    cases i with
    | zero =>
      obtain ⟨hn, hb, -⟩ := runWorker_some hfw
      simp [hn, hb]
    | succ n => simpa using ih n

theorem forall₂_slots_entries {tc : List Nat → Option (List Nat)}
    {files : List DirEnt} {slots : List WorkerOut}
    (h : List.Forall₂ (fun f w => runWorker tc f = some w) files slots) :
    slots.map (fun w => (w.name, w.full)) =
      files.map (fun f => (f.name, f.bytes.getD [])) := by
  induction h with
  | nil => rfl
  | cons hfw _ ih =>
    obtain ⟨hn, hb, -⟩ := runWorker_some hfw
    simp [hn, hb, ih]

theorem forall₂_map_name {β : Type} {tc : List Nat → Option (List Nat)}
    {files : List DirEnt} {slots : List WorkerOut}
    (h : List.Forall₂ (fun f w => runWorker tc f = some w) files slots)
    (g : String → β) :
    slots.map (fun w => g w.name) = files.map (fun f => g f.name) := by
  induction h with
  | nil => rfl
  | cons hfw _ ih => simp [(runWorker_some hfw).1, ih]

theorem forall₂_slots_pres {tc : List Nat → Option (List Nat)}
    {files : List DirEnt} {slots : List WorkerOut}
    (h : List.Forall₂ (fun f w => runWorker tc f = some w) files slots) :
    slots.map (fun w => (w.name, "/preview_" ++ w.name, "/" ++ w.name)) =
      files.map (fun f => (f.name, "/preview_" ++ f.name, "/" ++ f.name)) := by
  induction h with
  | nil => rfl
  | cons hfw _ ih => simp [(runWorker_some hfw).1, ih]

theorem forall₂_slots_mem {tc : List Nat → Option (List Nat)}
    {files : List DirEnt} {slots : List WorkerOut}
    (h : List.Forall₂ (fun f w => runWorker tc f = some w) files slots)
    {w : WorkerOut} (hw : w ∈ slots) : ∃ f ∈ files, runWorker tc f = some w := by
  induction h with
  | nil => cases hw
  | cons hfw _ ih =>
    rcases List.mem_cons.mp hw with h' | h'
    · exact ⟨_, List.mem_cons_self _ _, h' ▸ hfw⟩
    · obtain ⟨f, hf, hlast⟩ := ih h'
      exact ⟨f, List.mem_cons_of_mem _ hf, hlast⟩

/-- Draining every index in order recovers exactly the slot contents. -/
theorem filterMap_range_get {α β : Type} (l : List α) (g : α → β) :
    (List.range l.length).filterMap (fun i => (l.get? i).map g) = l.map g := by
  induction l with
  | nil => rfl
  | cons a xs ih =>
    rw [List.length_cons, List.range_succ_eq_map]
    simp only [List.filterMap_cons, List.get?_cons_zero, Option.map_some', List.filterMap_map,
      Function.comp_def, List.get?_cons_succ]
    rw [ih, List.map_cons]

/-! ## Lookup lemmas -/

theorem lookup_mem_nodup {t : List (String × List Nat × String)}
    (hnd : (t.map Prod.fst).Nodup) {k : String} {v : List Nat × String}
    (hmem : (k, v) ∈ t) : lookup t k = some v := by
  induction t with
  | nil => cases hmem
  | cons e es ih =>
    rcases List.mem_cons.mp hmem with h' | h'
    · subst h'
      simp [lookup, List.find?]
    · have hk : ¬(e.1 == k) = true := by
        intro hbeq
        have hke : e.1 = k := by simpa using hbeq
        have : k ∈ es.map Prod.fst := List.mem_map_of_mem Prod.fst h'
        exact (List.nodup_cons.mp (by simpa using hnd)).1 (hke ▸ this)
      have ih' := ih (List.nodup_cons.mp (by simpa using hnd)).2 h'
      simpa [lookup, List.find?, hk] using ih'

theorem lookup_not_mem {t : List (String × List Nat × String)} {k : String}
    (h : k ∉ t.map Prod.fst) : lookup t k = none := by
  induction t with
  | nil => rfl
  | cons e es ih =>
    have hk : ¬(e.1 == k) = true := by
      intro hbeq
      exact h (by simp_all)
    have ih' := ih (fun hmem => h (List.mem_cons_of_mem _ hmem))
    simpa [lookup, List.find?, hk] using ih'

/-! ## Concrete fixtures used by counterexamples and witnesses -/

/-- A transcoder oracle for which every codec stage succeeds, encoding
the preview as the bytes themselves. -/
def idTc : List Nat → Option (List Nat) := fun b => some b

/-- A transcoder oracle that fails on the empty input (a JPEG decoder
rejects an empty stream) and otherwise returns the input bytes. -/
def posTc : List Nat → Option (List Nat) :=
  fun b => if b = [] then none else some b

/-- A transcoder oracle that decodes only the file body `[1]` and fails
on everything else (one corrupt file among good ones). -/
def badTc : List Nat → Option (List Nat) :=
  fun b => if b = [1] then some [9] else none

def fileA : DirEnt := ⟨"a.jpg", some "jpg", some [1]⟩
def fileB : DirEnt := ⟨"b.jpeg", some "jpeg", some [2]⟩
def fileBad : DirEnt := ⟨"bad.jpg", some "jpg", some [2]⟩
def fileUpper : DirEnt := ⟨"c.JPG", some "JPG", some [3]⟩
def entErr : Except Unit DirEnt := .error ()

/-! ## Claim theorems -/

/-- C1: For every input directory, the PresentationList (the ordered
sequence of gallery entries used to build the home page) is in the
Scanner's original directory-listing order restricted to successes, for
every possible order in which concurrent transcode workers complete: two
runs differing only in worker completion order yield an identical
PresentationList. (Each worker writes only its own per-index slot and
the main thread reads the slots in index order, so the list is
independent of completion order; in this code any transcode failure
aborts the whole build, so a surviving run has every candidate
successful and the list is exactly the scan order.) -/
theorem c1_presentation_order_deterministic
    (tc : List Nat → Option (List Nat)) (files : List DirEnt) (o₁ o₂ : List Nat) :
    (buildRun tc files o₁).map presentationList =
      (buildRun tc files o₂).map presentationList ∧
    ∀ r, buildRun tc files o₁ = some r →
      presentationList r =
        files.map (fun f => (f.name, "/preview_" ++ f.name, "/" ++ f.name)) := by
  constructor
  · unfold buildRun
    cases allSome (files.map (runWorker tc)) <;> simp [presentationList]
  · intro r h
    obtain ⟨hf, -⟩ := buildRun_some h
    unfold presentationList
    exact forall₂_slots_pres hf

/-- Witness for C1 at a concrete two-image directory with reversed
completion order. -/
theorem c1_witness :
    presentationList
        ⟨[⟨"a.jpg", [1], [1]⟩, ⟨"b.jpeg", [2], [2]⟩],
          [("b.jpeg", [2]), ("a.jpg", [1])]⟩ =
      [("a.jpg", "/preview_a.jpg", "/a.jpg"), ("b.jpeg", "/preview_b.jpeg", "/b.jpeg")] :=
  (c1_presentation_order_deterministic idTc [fileA, fileB] [1, 0] [0, 1]).2
    ⟨[⟨"a.jpg", [1], [1]⟩, ⟨"b.jpeg", [2], [2]⟩], [("b.jpeg", [2]), ("a.jpg", [1])]⟩
    (by decide)

/-- C2 counterexample: the archive is NOT re-ordered by ordinal by a
single aggregator after the barrier — each worker appends its entry to
the shared `ZipWriter` under the mutex at the moment it completes
(lines 143-151). Two runs over the same two-image directory that differ
only in worker completion order produce different archive entry orders,
and the completion order `[1, 0]` yields the archive in reverse scan
order. -/
theorem c2_counterexample :
    ([1, 0] : List Nat).Perm (List.range 2) ∧
    ([0, 1] : List Nat).Perm (List.range 2) ∧
    (buildRun idTc [fileA, fileB] [1, 0]).map RunOutput.zipEntries ≠
      (buildRun idTc [fileA, fileB] [0, 1]).map RunOutput.zipEntries ∧
    (buildRun idTc [fileA, fileB] [1, 0]).map RunOutput.zipEntries =
      some [("b.jpeg", [2]), ("a.jpg", [1])] := by decide

/-- C2 (amended): each worker appends its own `(image_name, full bytes)`
entry to the shared zip when it completes, so the archive entries are
exactly the scanned sources' entries but in worker completion order —
there is no post-barrier re-ordering by ordinal. -/
theorem c2_zip_in_completion_order
    (tc : List Nat → Option (List Nat)) (files : List DirEnt) (order : List Nat)
    (r : RunOutput) (h : buildRun tc files order = some r) :
    r.zipEntries =
      order.filterMap (fun i => (files.get? i).map (fun f => (f.name, f.bytes.getD []))) := by
  obtain ⟨hf, hz⟩ := buildRun_some h
  rw [hz]
  have hfun : (fun i => (r.slots.get? i).map (fun w => (w.name, w.full))) =
      (fun i => (files.get? i).map (fun f => (f.name, f.bytes.getD []))) :=
    funext (forall₂_slots_get hf)
  rw [hfun]

/-- Witness for the amended C2 at a concrete run with completion order
`[1, 0]`. -/
theorem c2_amended_witness :
    RunOutput.zipEntries
        ⟨[⟨"a.jpg", [1], [1]⟩, ⟨"b.jpeg", [2], [2]⟩],
          [("b.jpeg", [2]), ("a.jpg", [1])]⟩ =
      ([1, 0] : List Nat).filterMap
        (fun i => ([fileA, fileB].get? i).map (fun f => (f.name, f.bytes.getD []))) :=
  c2_zip_in_completion_order idTc [fileA, fileB] [1, 0]
    ⟨[⟨"a.jpg", [1], [1]⟩, ⟨"b.jpeg", [2], [2]⟩], [("b.jpeg", [2]), ("a.jpg", [1])]⟩
    (by decide)

/-- C3 counterexample: a failed transcode does NOT produce a failure
marker with the other files processed to completion — every stage in the
worker is an `expect` (lines 110-121), so one undecodable file panics
its worker and kills the whole build (`none`), even though the sibling
file `fileA` would have transcoded successfully. -/
theorem c3_counterexample :
    buildRun badTc [fileA, fileBad] [0, 1] = none ∧
    runWorker badTc fileA = some ⟨"a.jpg", [9], [1]⟩ ∧
    runWorker badTc fileBad = none := by decide

/-- C3 (amended): a source file whose open/read/decode/scale/encode
fails panics its worker and aborts the entire build; no output at all is
produced (rather than the file merely being excluded). -/
theorem c3_failure_aborts_build
    (tc : List Nat → Option (List Nat)) (files : List DirEnt) (order : List Nat)
    (f : DirEnt) (hmem : f ∈ files) (hfail : runWorker tc f = none) :
    buildRun tc files order = none := by
  have hnone : none ∈ files.map (runWorker tc) := by
    rw [← hfail]
    exact List.mem_map_of_mem _ hmem
  unfold buildRun
  rw [allSome_eq_none hnone]

/-- Witness for the amended C3: the corrupt `fileBad` aborts the
two-file build. -/
theorem c3_witness : buildRun badTc [fileA, fileBad] [0, 1] = none :=
  c3_failure_aborts_build badTc [fileA, fileBad] [0, 1] fileBad (by decide) (by decide)

/-- C4 counterexample: a single unreadable directory entry is NOT
recoverable — the `try_collect().expect("Listing entry")` (lines 71-73)
keeps per-entry errors and aborts on the first one, even though the same
listing without the bad entry scans fine. -/
theorem c4_counterexample :
    scan (some [Except.ok fileA, entErr]) = none ∧
    scan (some [Except.ok fileA]) = some [fileA] := by decide

/-- C4 (amended): the scan aborts startup both when the root directory
cannot be listed and when any single directory entry errors; only a
listing whose entries all read successfully scans, yielding the
extension-filtered candidates in listing order. -/
theorem c4_scan_abort_characterization (l : List (Except Unit DirEnt)) :
    scan none = none ∧
    (Except.error () ∈ l → scan (some l) = none) ∧
    ((∀ x ∈ l, x ≠ Except.error ()) →
      scan (some l) =
        some ((l.filterMap Except.toOption).filter (fun d => extMatch d.ext))) :=
  ⟨rfl, fun h => scan_entry_error h, fun h => scan_allOk h⟩

/-- Witness for the amended C4: one errored entry aborts; an all-ok
listing scans to its jpg candidates. -/
theorem c4_witness :
    scan (some [Except.ok fileA, entErr]) = none ∧
    scan (some [Except.ok fileA, Except.ok ⟨"c.txt", some "txt", some [3]⟩]) =
      some [fileA] := by
  constructor
  · exact (c4_scan_abort_characterization [Except.ok fileA, entErr]).2.1
      (by simp [entErr])
  · have h := (c4_scan_abort_characterization
      [Except.ok fileA, Except.ok ⟨"c.txt", some "txt", some [3]⟩]).2.2
      (by intro x hx; fin_cases hx <;> simp)
    exact h.trans (by decide)

/-- C5 counterexample: the candidate filter is NOT case-insensitive — an
entry with extension `JPG` matches the JPEG suffix set case-insensitively
but is excluded by the scanner (`Some("jpg" | "jpeg")` is an exact
match). -/
theorem c5_counterexample :
    extMatchCI fileUpper.ext = true ∧
    extMatch fileUpper.ext = false ∧
    scan (some [Except.ok fileUpper]) = some [] := by decide

/-- C5 (amended): the candidate filter matches the extension
case-sensitively: an entry is a candidate exactly when its extension is
the literal string `jpg` or `jpeg`. -/
theorem c5_ext_filter_case_sensitive (e : Option String) (d : DirEnt) :
    (extMatch e = true ↔ e = some "jpg" ∨ e = some "jpeg") ∧
    scan (some [Except.ok d]) = some (if extMatch d.ext then [d] else []) := by
  constructor
  · cases e with
    | none => simp [extMatch]
    | some s =>
      by_cases h1 : s = "jpg"
      · subst h1; simp [extMatch]
      · by_cases h2 : s = "jpeg"
        · subst h2; simp [extMatch]
        · have hfalse : extMatch (some s) = false := by
            unfold extMatch
            split <;> simp_all
          simp [hfalse, h1, h2]
  · by_cases hd : extMatch d.ext <;>
      simp [scan, scanDir, List.filterMap_cons, scanStep, hd, tryCollect, Except.map]

/-- C6 counterexample: the route keys and displayName are derived from
the full `file_name()` (extension included), not from the filename
stem: for `a.jpg` the presentation entry is
`("a.jpg", "/preview_a.jpg", "/a.jpg")`, while the stem is `"a"`. -/
theorem c6_counterexample :
    (buildRun idTc [fileA] [0]).map presentationList =
      some [("a.jpg", "/preview_a.jpg", "/a.jpg")] ∧
    stem fileA.name = "a" ∧
    ("a.jpg" : String) ≠ stem fileA.name := by decide

/-- C6 (amended): for every successful build, the displayName is the
full filename, and every route key is derived from it: the full route is
`/{image_name}` and the preview route `/preview_{image_name}`. -/
theorem c6_route_keys_from_full_filename
    (tc : List Nat → Option (List Nat)) (files : List DirEnt) (order : List Nat)
    (r : RunOutput) (zipB homeB : List Nat) (h : buildRun tc files order = some r) :
    (routeTable r zipB homeB).map Prod.fst =
      (files.map (fun f => ["/" ++ f.name, "/preview_" ++ f.name])).flatten
        ++ ["/", "/images.zip"] := by
  obtain ⟨hf, -⟩ := buildRun_some h
  unfold routeTable
  rw [List.map_append]
  congr 1
  · rw [List.map_flatten, List.map_map]
    congr 1
    have := forall₂_map_name hf (fun n => ["/" ++ n, "/preview_" ++ n])
    simpa [Function.comp_def] using this

/-- Witness for the amended C6 at a concrete one-image build. -/
theorem c6_amended_witness :
    (routeTable ⟨[⟨"a.jpg", [1], [1]⟩], [("a.jpg", [1])]⟩ [7] [8]).map Prod.fst =
      ([fileA].map (fun f => ["/" ++ f.name, "/preview_" ++ f.name])).flatten
        ++ ["/", "/images.zip"] :=
  c6_route_keys_from_full_filename idTc [fileA] [0]
    ⟨[⟨"a.jpg", [1], [1]⟩, ], [("a.jpg", [1])]⟩ [7] [8] (by decide)

/-- C7: for every successful build whose completion order is a genuine
interleaving (a permutation of the worker indices), the finalized
archive contains exactly one entry per successful source image — no
missing, duplicated or partial entries — and each entry's bytes are
byte-for-byte the original source file's bytes. (In this code a
successful build means every source succeeded.) -/
theorem c7_archive_entries_exact
    (tc : List Nat → Option (List Nat)) (files : List DirEnt) (order : List Nat)
    (r : RunOutput) (hperm : order.Perm (List.range files.length))
    (h : buildRun tc files order = some r) :
    r.zipEntries.Perm (files.map (fun f => (f.name, f.bytes.getD []))) := by
  obtain ⟨hf, hz⟩ := buildRun_some h
  have hlen : r.slots.length = files.length := hf.length_eq.symm
  rw [hz]
  have h1 := hperm.filterMap (fun i => (r.slots.get? i).map (fun w => (w.name, w.full)))
  rw [← hlen] at h1
  rw [filterMap_range_get r.slots (fun w => (w.name, w.full))] at h1
  exact (forall₂_slots_entries hf) ▸ h1

/-- Witness for C7 at a concrete two-image build with reversed
completion order. -/
theorem c7_witness :
    (RunOutput.zipEntries
        ⟨[⟨"a.jpg", [1], [1]⟩, ⟨"b.jpeg", [2], [2]⟩],
          [("b.jpeg", [2]), ("a.jpg", [1])]⟩).Perm
      ([fileA, fileB].map (fun f => (f.name, f.bytes.getD []))) :=
  c7_archive_entries_exact idTc [fileA, fileB] [1, 0]
    ⟨[⟨"a.jpg", [1], [1]⟩, ⟨"b.jpeg", [2], [2]⟩], [("b.jpeg", [2]), ("a.jpg", [1])]⟩
    (by decide) (by decide)

/-- C8: on a successful build, every route key reachable from the
PresentationList resolves in the frozen table to non-empty bytes with
the correct content-type (`image/jpeg` for the full image, `image/webp`
for the preview, `application/zip` for the archive), and every absent
key resolves to NotFound (`none`); `lookup` is a total function, so no
lookup can panic. Hypotheses mirror run-time facts: the codec oracle
rejects an empty stream and produces non-empty previews, the finalized
zip is non-empty, and the route keys are distinct (the router's route
registration panics on duplicates, so a serving build has distinct
keys). -/
theorem c8_lookup_sound
    (tc : List Nat → Option (List Nat)) (files : List DirEnt) (order : List Nat)
    (r : RunOutput) (zipB homeB : List Nat)
    (h : buildRun tc files order = some r)
    (htc0 : tc [] = none)
    (hprev : ∀ b p, tc b = some p → p ≠ [])
    (hzipB : zipB ≠ [])
    (hnodup : ((routeTable r zipB homeB).map Prod.fst).Nodup) :
    (∀ w ∈ r.slots,
      lookup (routeTable r zipB homeB) ("/preview_" ++ w.name) =
        some (w.preview, "image/webp") ∧
      w.preview ≠ [] ∧
      lookup (routeTable r zipB homeB) ("/" ++ w.name) = some (w.full, "image/jpeg") ∧
      w.full ≠ []) ∧
    (lookup (routeTable r zipB homeB) "/images.zip" = some (zipB, "application/zip") ∧
      zipB ≠ []) ∧
    (∀ k, k ∉ (routeTable r zipB homeB).map Prod.fst →
      lookup (routeTable r zipB homeB) k = none) := by
  obtain ⟨hf, -⟩ := buildRun_some h
  refine ⟨?_, ⟨?_, hzipB⟩, ?_⟩
  · intro w hw
    have hpairmem : [("/" ++ w.name, w.full, "image/jpeg"),
        ("/preview_" ++ w.name, w.preview, "image/webp")] ∈
        r.slots.map (fun w => [("/" ++ w.name, w.full, "image/jpeg"),
          ("/preview_" ++ w.name, w.preview, "image/webp")]) :=
      List.mem_map_of_mem _ hw
    have hmem1 : ("/" ++ w.name, w.full, "image/jpeg") ∈ routeTable r zipB homeB :=
      List.mem_append_left _ (List.mem_flatten.mpr ⟨_, hpairmem, by simp⟩)
    have hmem2 : ("/preview_" ++ w.name, w.preview, "image/webp") ∈
        routeTable r zipB homeB :=
      List.mem_append_left _ (List.mem_flatten.mpr ⟨_, hpairmem, by simp⟩)
    obtain ⟨f, -, hrw⟩ := forall₂_slots_mem hf hw
    obtain ⟨-, -, htc⟩ := runWorker_some hrw
    have hpnil : w.preview ≠ [] := hprev _ _ htc
    have hfnil : w.full ≠ [] := by
      intro hempty
      rw [hempty, htc0] at htc
      cases htc
    exact ⟨lookup_mem_nodup hnodup hmem2, hpnil, lookup_mem_nodup hnodup hmem1, hfnil⟩
  · have hmemz : ("/images.zip", zipB, "application/zip") ∈ routeTable r zipB homeB :=
      List.mem_append_right _ (by simp)
    exact lookup_mem_nodup hnodup hmemz
  · intro k hk
    exact lookup_not_mem hk

/-- Witness for C8 at a concrete one-image build: present keys resolve
with the right content-type; an absent key is NotFound. -/
theorem c8_witness :
    lookup (routeTable ⟨[⟨"a.jpg", [1], [1]⟩], [("a.jpg", [1])]⟩ [7] [8]) "/a.jpg" =
      some ([1], "image/jpeg") ∧
    lookup (routeTable ⟨[⟨"a.jpg", [1], [1]⟩], [("a.jpg", [1])]⟩ [7] [8]) "/absent" =
      none := by
  have h := c8_lookup_sound posTc [fileA] [0]
    ⟨[⟨"a.jpg", [1], [1]⟩], [("a.jpg", [1])]⟩ [7] [8]
    (by decide) (by decide)
    (by
      intro b p hbp
      by_cases hb : b = [] <;> simp [posTc, hb] at hbp
      exact hbp ▸ hb)
    (by decide) (by decide)
  exact ⟨(h.1 ⟨"a.jpg", [1], [1]⟩ (by decide)).2.2.1, h.2.2 "/absent" (by decide)⟩

/-- C9: every preview's decoded dimensions are at most 900×600 and both
axes are scaled by one common factor (aspect ratio preserved up to the
rounding of integer scaling); images already within the cap keep their
exact dimensions. Stated over `specScale`, the scaling hint modelled
from the spec (the decoder itself is an external crate). -/
theorem c9_preview_scaled_within_bounds (w h : Nat) (hw : 0 < w) (hh : 0 < h) :
    (specScale w h).1 ≤ 900 ∧ (specScale w h).2 ≤ 600 ∧
    ∃ n d, 0 < d ∧ n ≤ d ∧
      (specScale w h).1 = w * n / d ∧ (specScale w h).2 = h * n / d := by
  unfold specScale
  split
  · next hle =>
    exact ⟨hle.1, hle.2, 1, 1, Nat.one_pos, le_refl 1, by simp, by simp⟩
  · next hgt =>
    split
    · next hwide =>
      have hw900 : 900 ≤ w := by omega
      have hdiv : h * 900 / w ≤ 600 := by
        have h1 : h * 900 ≤ 600 * w := by omega
        calc h * 900 / w ≤ 600 * w / w := Nat.div_le_div_right h1
          _ = 600 := Nat.mul_div_cancel 600 hw
      refine ⟨le_refl _, hdiv, 900, w, hw, hw900, ?_, rfl⟩
      rw [Nat.mul_comm w 900]
      exact (Nat.mul_div_cancel 900 hw).symm
    · next hnarrow =>
      have hh600 : 600 ≤ h := by omega
      have hdiv : w * 600 / h ≤ 900 := by
        have h1 : w * 600 ≤ 900 * h := by omega
        calc w * 600 / h ≤ 900 * h / h := Nat.div_le_div_right h1
          _ = 900 := Nat.mul_div_cancel 900 hh
      refine ⟨hdiv, le_refl _, 600, h, hh, hh600, rfl, ?_⟩
      rw [Nat.mul_comm h 600]
      exact (Nat.mul_div_cancel 600 hh).symm

/-- Witness for C9 at a concrete 1200×900 source. -/
theorem c9_witness :
    (specScale 1200 900).1 ≤ 900 ∧ (specScale 1200 900).2 ≤ 600 ∧
    ∃ n d, 0 < d ∧ n ≤ d ∧
      (specScale 1200 900).1 = 1200 * n / d ∧ (specScale 1200 900).2 = 900 * n / d :=
  c9_preview_scaled_within_bounds 1200 900 (by decide) (by decide)

/-- C10: with zero JPEG candidates the build still completes — the
barrier is passed immediately (no worker ever holds a `ready_sender`),
the archive is finalized with no entries, the presentation list is
empty, and the home page and archive routes are still registered and
resolvable. -/
theorem c10_empty_directory
    (tc : List Nat → Option (List Nat)) (order : List Nat) (zipB homeB : List Nat) :
    buildRun tc [] order = some ⟨[], []⟩ ∧
    presentationList ⟨[], []⟩ = [] ∧
    lookup (routeTable ⟨[], []⟩ zipB homeB) "/" = some (homeB, "text/html") ∧
    lookup (routeTable ⟨[], []⟩ zipB homeB) "/images.zip" =
      some (zipB, "application/zip") := by
  refine ⟨?_, rfl, ?_, ?_⟩
  · show some (⟨[], order.filterMap
        (fun i => (([] : List WorkerOut).get? i).map (fun w => (w.name, w.full)))⟩ :
      RunOutput) = some ⟨[], []⟩
    have hz : order.filterMap
        (fun i => (([] : List WorkerOut).get? i).map (fun w => (w.name, w.full))) = [] := by
      induction order with
      | nil => rfl
      | cons a as ih => simp [List.filterMap_cons, ih]
    rw [hz]
  · simp [lookup, routeTable, List.find?]
  · simp [lookup, routeTable, List.find?]

end ManglePhotos
